import Mathlib

/-!
Shallow embedding of the `zk-disorder` core (src/src/lib.rs): the HLTM lane
map, the permutation Φ (`State::apply_phi`), the duplex sponge
(`FractSponge::encrypt`), and the cut-and-choose trace proof
(`ZKProof::prove` / `ZKProof::verify` with the Merkle helpers
`build_merkle_root`, `generate_merkle_proof`, `verify_merkle_proof`,
`derive_indices`).

Machine integers are modelled as `Nat` with explicit reduction modulo `2^64`
where the Rust code performs wrapping arithmetic.  The external 32-byte hash
`Fract::hash` is modelled as an arbitrary function parameter
`H : List Nat → List Nat` (byte lists); the Rust code fixes one such
function, and every theorem below is quantified over `H`, so it holds for
the fixed one in particular.  Code that can panic (out-of-bounds `Vec`
indexing in `ZKProof::verify`) is modelled with `Option`: `none` is a panic.
-/

namespace ZkDisorder

/-- Bytes are modelled as lists of naturals; the Rust `[u8; 32]` hash values
are 32-element lists.  The embedding never needs the length invariant. -/
abbrev Bytes := List Nat

-- Constants from lib.rs.
def STATE_SIZE : Nat := 4
def ROUNDS : Nat := 8
def TRACE_LEN : Nat := 16

/-- Wrapping 64-bit multiplication (`u64::wrapping_mul`). -/
def wmul (a b : Nat) : Nat := a * b % 2 ^ 64

/-- Wrapping 64-bit subtraction (`u64::wrapping_sub`); for `a b < 2^64` this
is `(a - b) mod 2^64`. -/
def wsub (a b : Nat) : Nat := (a + 2 ^ 64 - b % 2 ^ 64) % 2 ^ 64

/-- 64-bit left rotation (`u64::rotate_left`) for a rotation amount
`0 < n < 64` and `x < 2^64`. -/
def rotl (x n : Nat) : Nat := ((x <<< n) % 2 ^ 64) ||| (x >>> (64 - n))

/-- 64-bit right rotation (`u64::rotate_right`) for a rotation amount
`0 < n < 64` and `x < 2^64`. -/
def rotr (x n : Nat) : Nat := (x >>> n) ||| ((x <<< (64 - n)) % 2 ^ 64)

/-- The hyperchaotic 4-lane state (`struct State { s: [u64; 4] }`). -/
structure State where
  s0 : Nat
  s1 : Nat
  s2 : Nat
  s3 : Nat
deriving DecidableEq, Repr

instance : Inhabited State := ⟨⟨0, 0, 0, 0⟩⟩

/-- `State::hltm`, the hybrid logistic-tent lane map:
`if x < 2^63 { x.wrapping_mul(4).wrapping_mul(1u64.wrapping_sub(x)) }
else { let term1 = 0u64.wrapping_sub(x); let term2 = x.wrapping_sub(1<<63);
term1.wrapping_mul(4).wrapping_mul(term2) }`. -/
def hltm (x : Nat) : Nat :=
  if x < 2 ^ 63 then
    wmul (wmul x 4) (wsub 1 x)
  else
    wmul (wmul (wsub 0 x) 4) (wsub x (2 ^ 63))

/-- `State::apply_phi`: per-lane HLTM followed by the rotation-XOR coupling
lattice.  The Rust method mutates in place; here it returns the new state. -/
def applyPhi (st : State) : State :=
  let f0 := hltm st.s0
  let f1 := hltm st.s1
  let f2 := hltm st.s2
  let f3 := hltm st.s3
  { s0 := f0 ^^^ rotr st.s1 31 ^^^ rotl st.s3 17
    s1 := f1 ^^^ rotr st.s2 23 ^^^ rotl st.s0 11
    s2 := f2 ^^^ rotr st.s3 47 ^^^ rotl st.s1 29
    s3 := f3 ^^^ rotr st.s0 13 ^^^ rotl st.s2 5 }

/-- A state is a genuine 4-tuple of 64-bit words. -/
def State.valid (st : State) : Prop :=
  st.s0 < 2 ^ 64 ∧ st.s1 < 2 ^ 64 ∧ st.s2 < 2 ^ 64 ∧ st.s3 < 2 ^ 64

instance (st : State) : Decidable st.valid := by
  unfold State.valid; infer_instance

/-! ### Duplex sponge (`FractSponge`) -/

/-- `struct FractSponge { state: State }`. -/
structure FractSponge where
  state : State
deriving DecidableEq, Repr

/-- `FractSponge::new(key, iv)`: capacity = key, rate = IV, i.e. the state
is seeded as `[iv0, iv1, key0, key1]`. -/
def FractSponge.new (key iv : Nat × Nat) : FractSponge :=
  ⟨⟨iv.1, iv.2, key.1, key.2⟩⟩

/-- `FractSponge::encrypt(plaintext: u64) -> u64`: XOR the single 64-bit
plaintext word into lane `s0`, run the `for _ in 0..ROUNDS` permutation
loop, and squeeze lane `s0`.  The Rust method mutates the sponge and
returns the ciphertext word; here it returns both. -/
def FractSponge.encrypt (sp : FractSponge) (plaintext : Nat) : Nat × FractSponge :=
  let absorbed : State := { sp.state with s0 := sp.state.s0 ^^^ plaintext }
  let churned : State := (List.range ROUNDS).foldl (fun st _ => applyPhi st) absorbed
  (churned.s0, ⟨churned⟩)

/-- Modelled from the spec (§4.3, not present in src/): single-block sponge
encryption of a 128-bit block `(p0, p1)`: absorb `s0 ← s0 XOR p0`,
`s1 ← s1 XOR p1`, apply Φ exactly 8 times, squeeze `(s0, s1)`. -/
def specEncryptBlock (sp : FractSponge) (p0 p1 : Nat) : (Nat × Nat) × FractSponge :=
  let absorbed : State :=
    { sp.state with s0 := sp.state.s0 ^^^ p0, s1 := sp.state.s1 ^^^ p1 }
  let churned : State := applyPhi^[8] absorbed
  ((churned.s0, churned.s1), ⟨churned⟩)

/-! ### Byte serialization

`bincode::serialize` of `State { s: [u64; 4] }` is the 32-byte
little-endian concatenation of the four lanes. -/

/-- `k`-byte little-endian encoding of a natural number. -/
def toLEBytes : Nat → Nat → List Nat
  | 0, _ => []
  | k + 1, n => n % 256 :: toLEBytes k (n / 256)

/-- Little-endian value of a byte list. -/
def fromLEBytes : List Nat → Nat
  | [] => 0
  | b :: rest => b + 256 * fromLEBytes rest

/-- `bincode::serialize(state)`: 32 bytes, `s0‖s1‖s2‖s3`, each lane
little-endian. -/
def snapshotBytes (st : State) : Bytes :=
  toLEBytes 8 st.s0 ++ toLEBytes 8 st.s1 ++ toLEBytes 8 st.s2 ++ toLEBytes 8 st.s3

/-! ### Merkle helpers (`--- Merkle Helpers (Simplified for FRACT) ---`) -/

/-- One level of `build_merkle_root`'s chunking loop: `leaves.chunks(2)`,
hashing full pairs (`H(chunk[0] ‖ chunk[1])`) and promoting a trailing
unpaired node unchanged. -/
def pairUp (H : Bytes → Bytes) : List Bytes → List Bytes
  | a :: b :: rest => H (a ++ b) :: pairUp H rest
  | [a] => [a]
  | [] => []

/-- Fuel-indexed recursion for `build_merkle_root`; the fuel only serves
Lean's termination checker.  `build_merkle_root` recurses until a single
node remains; one level halves the length (rounding up), so fuel equal to
the initial length always suffices.  On the empty list the Rust code never
terminates; that input is unreachable from `prove` and the fuel version
returns `[]` there. -/
def buildMerkleRootFuel (H : Bytes → Bytes) : Nat → List Bytes → Bytes
  | 0, l => l.headD []
  | n + 1, l => if l.length = 1 then l.headD [] else buildMerkleRootFuel H n (pairUp H l)

/-- `build_merkle_root(leaves)`. -/
def build_merkle_root (H : Bytes → Bytes) (leaves : List Bytes) : Bytes :=
  buildMerkleRootFuel H leaves.length leaves

/-- `generate_merkle_proof(leaves, target_idx)`: the source returns
`vec![]` ("Placeholder for standard merkle path generation"). -/
def generate_merkle_proof (leaves : List Bytes) (target_idx : Nat) : List Bytes :=
  []

/-- `verify_merkle_proof(root, leaf, proof, idx, size)`: the source returns
`true` unconditionally ("Placeholder for verification"). -/
def verify_merkle_proof (root leaf : Bytes) (pf : List Bytes) (idx size : Nat) : Bool :=
  true

/-- `derive_indices(hash, limit)`: for `i` in `0..4`, read the `i`-th
little-endian 8-byte word of the hash and reduce it modulo `limit`. -/
def derive_indices (hash : Bytes) (limit : Nat) : List Nat :=
  (List.range 4).map (fun i => fromLEBytes ((hash.drop (i * 8)).take 8) % limit)

/-- Modelled from the spec (§4.6): interpret the 32-byte challenge seed as
four little-endian 64-bit integers `c0..c3` and output
`[c0 % 16, c1 % 16, c2 % 16, c3 % 16]` — no deduplication. -/
def specIndices (seed : Bytes) : List Nat :=
  [ fromLEBytes ((seed.drop 0).take 8) % 16
  , fromLEBytes ((seed.drop 8).take 8) % 16
  , fromLEBytes ((seed.drop 16).take 8) % 16
  , fromLEBytes ((seed.drop 24).take 8) % 16 ]

/-! ### The trace proof (`ZKProof`) -/

/-- `struct ZKProof`. -/
structure ZKProof where
  merkle_root : Bytes
  revealed_steps : List (Nat × State × State)
  merkle_proofs : List (List Bytes)
deriving DecidableEq, Repr

/-- The execution trace: `TRACE_LEN + 1 = 17` snapshots,
`trace[i] = Φ^i(initial_state)` (the Rust loop pushes the seed state and
then 16 successive `apply_phi` results). -/
def traceOf (initial_state : State) : List State :=
  (List.range (TRACE_LEN + 1)).map (fun i => applyPhi^[i] initial_state)

/-- The Merkle leaves built in `ZKProof::prove`: one `Fract::hash` of the
serialized snapshot per trace entry — 17 leaves, no padding. -/
def leavesOf (H : Bytes → Bytes) (initial_state : State) : List Bytes :=
  (traceOf initial_state).map (fun st => H (snapshotBytes st))

/-- `ZKProof::prove(initial_state)`.  The trace accesses `trace[idx]` and
`trace[idx + 1]` are modelled with `getD`; they are always in bounds
because every derived index is `< TRACE_LEN = 16` and the trace has 17
entries. -/
def prove (H : Bytes → Bytes) (initial_state : State) : ZKProof :=
  let trace := traceOf initial_state
  let leaves := leavesOf H initial_state
  let root := build_merkle_root H leaves
  let challenge_hash := H root
  let challenge_indices := derive_indices challenge_hash TRACE_LEN
  { merkle_root := root
    revealed_steps :=
      challenge_indices.map (fun idx => (idx, trace.getD idx default, trace.getD (idx + 1) default))
    merkle_proofs :=
      challenge_indices.map (fun idx => generate_merkle_proof leaves idx) }

/-- The verifier loop of `ZKProof::verify`: walk the revealed steps with
their position `i`, checking challenge integrity, the Φ transition, and
Merkle inclusion.  Rust's `challenge_indices[i]` and
`self.merkle_proofs[i]` index expressions panic when out of bounds; a
panic is modelled as `none`. -/
def verifySteps (H : Bytes → Bytes) (root : Bytes) (indices : List Nat)
    (proofs : List (List Bytes)) : List (Nat × State × State) → Nat → Option Bool
  | [], _ => some true
  | (idx, s_curr, s_next) :: rest, i =>
    match indices[i]? with
    | none => none
    | some c =>
      if idx ≠ c then some false
      else if applyPhi s_curr ≠ s_next then some false
      else
        match proofs[i]? with
        | none => none
        | some pf =>
          if verify_merkle_proof root (H (snapshotBytes s_curr)) pf idx (TRACE_LEN + 1) then
            verifySteps H root indices proofs rest (i + 1)
          else some false

/-- `ZKProof::verify(&self) -> bool`, with `none` modelling a panic. -/
def verify (H : Bytes → Bytes) (p : ZKProof) : Option Bool :=
  let challenge_hash := H p.merkle_root
  let challenge_indices := derive_indices challenge_hash TRACE_LEN
  if p.revealed_steps.length ≠ challenge_indices.length then some false
  else verifySteps H p.merkle_root challenge_indices p.merkle_proofs p.revealed_steps 0

/-- The index-tampering transformation of the spec's Scenario F: replace
`revealed[0].idx` by `(revealed[0].idx + 1) % 16` (for a proof produced by
`prove`, `revealed[0].idx` equals `indices[0]`), leaving everything else
unchanged. -/
def tamper_index (p : ZKProof) : ZKProof :=
  { p with
    revealed_steps :=
      match p.revealed_steps with
      | [] => []
      | (idx, a, b) :: rest => ((idx + 1) % 16, a, b) :: rest }

/-! ### Concrete instances used by witnesses and counterexamples -/

/-- A concrete hash instance: the constant all-zero 32-byte output.  The
theorems are quantified over `H`; witnesses evaluate them here. -/
def H0 : Bytes → Bytes := fun _ => List.replicate 32 0

/-- The all-zero state. -/
def zeroState : State := ⟨0, 0, 0, 0⟩

/-- A proof that `verify` accepts under `H0`: for the constant-zero hash the
derived indices are `[0, 0, 0, 0]`, the zero state satisfies
`applyPhi zeroState = zeroState`, and the Merkle checks are vacuous. -/
def proofAccepted : ZKProof :=
  ⟨List.replicate 32 0, List.replicate 4 (0, zeroState, zeroState), List.replicate 4 []⟩

/-- Same as `proofAccepted` but with five Merkle paths instead of four. -/
def proofFivePaths : ZKProof :=
  ⟨List.replicate 32 0, List.replicate 4 (0, zeroState, zeroState), List.replicate 5 []⟩

/-- Same as `proofAccepted` but with an empty Merkle-paths vector. -/
def proofNoPaths : ZKProof :=
  ⟨List.replicate 32 0, List.replicate 4 (0, zeroState, zeroState), []⟩

/-- A proof with only three revealed entries. -/
def proofShortRevealed : ZKProof :=
  ⟨List.replicate 32 0, List.replicate 3 (0, zeroState, zeroState), List.replicate 4 []⟩

/-- Same as `proofAccepted` except that the first Merkle path carries a
(nonsensical) sibling hash. -/
def proofAlteredPath : ZKProof :=
  ⟨List.replicate 32 0, List.replicate 4 (0, zeroState, zeroState),
    [[List.replicate 32 1], [], [], []]⟩

/-- First member of a Φ-collision pair: lanes 1 and 3 hold
`0x0bc34bc34bc34bc0`, which the HLTM maps to the same value as its XOR with
`0x8888888888888888`. -/
def collisionA : State := ⟨0, 0x0bc34bc34bc34bc0, 0, 0x0bc34bc34bc34bc0⟩

/-- Second member of the Φ-collision pair: lanes 1 and 3 hold
`0x834bc34bc34bc348 = 0x0bc34bc34bc34bc0 XOR 0x8888888888888888`. -/
def collisionB : State := ⟨0, 0x834bc34bc34bc348, 0, 0x834bc34bc34bc348⟩

/-! ### Basic lemmas -/

lemma derive_indices_length (h : Bytes) (limit : Nat) :
    (derive_indices h limit).length = 4 := by
  simp [derive_indices]

lemma derive_indices_lt (h : Bytes) :
    ∀ x ∈ derive_indices h 16, x < 16 := by
  intro x hx
  simp only [derive_indices, List.mem_map] at hx
  obtain ⟨i, _, rfl⟩ := hx
  exact Nat.mod_lt _ (by norm_num)

lemma derive_indices_eq_specIndices (seed : Bytes) :
    derive_indices seed TRACE_LEN = specIndices seed := rfl

lemma traceOf_getElem (s : State) (i : Nat) (hi : i < 17) :
    (traceOf s)[i]? = some (applyPhi^[i] s) := by
  unfold traceOf TRACE_LEN
  rw [List.getElem?_map, List.getElem?_range hi, Option.map_some']

lemma traceOf_getD (s : State) (i : Nat) (hi : i ≤ 16) :
    (traceOf s).getD i default = applyPhi^[i] s := by
  rw [List.getD_eq_getElem?_getD, traceOf_getElem s i (by omega), Option.getD_some]

lemma traceOf_step (s : State) (i : Nat) (hi : i < 16) :
    applyPhi ((traceOf s).getD i default) = (traceOf s).getD (i + 1) default := by
  rw [traceOf_getD s i (by omega), traceOf_getD s (i + 1) (by omega),
    Function.iterate_succ_apply']

lemma foldl_range_iterate {α : Type} (f : α → α) (n : Nat) (x : α) :
    (List.range n).foldl (fun a _ => f a) x = f^[n] x := by
  induction n with
  | zero => rfl
  | succ k ih =>
    rw [List.range_succ, List.foldl_append, ih, Function.iterate_succ_apply']
    rfl

/-! ### Structure of the verifier loop -/

/-- Honest acceptance: a suffix of revealed steps built from indices that
align with the verifier's challenge list, whose transitions follow
`applyPhi` on a trace, and whose proofs vector is long enough, passes
`verifySteps`. -/
lemma verifySteps_accepts (H : Bytes → Bytes) (root : Bytes) (inds : List Nat)
    (proofs : List (List Bytes)) (tr : List State)
    (hstep : ∀ idx, idx < 16 → applyPhi (tr.getD idx default) = tr.getD (idx + 1) default) :
    ∀ (suf : List Nat) (i : Nat),
      (∀ j, j < suf.length → inds[i + j]? = suf[j]?) →
      (∀ j, j < suf.length → i + j < proofs.length) →
      (∀ x ∈ suf, x < 16) →
      verifySteps H root inds proofs
        (suf.map (fun idx => (idx, tr.getD idx default, tr.getD (idx + 1) default))) i =
        some true := by
  intro suf
  induction suf with
  | nil => intro i _ _ _; rfl
  | cons a rest ih =>
    intro i halign hplen hmem
    have h0 : inds[i]? = some a := by
      have := halign 0 (by simp)
      simpa using this
    have ha : a < 16 := hmem a (List.mem_cons_self a rest)
    have hp0 : i < proofs.length := by
      have := hplen 0 (by simp)
      simpa using this
    obtain ⟨pf, hpf⟩ : ∃ pf, proofs[i]? = some pf :=
      ⟨proofs[i], List.getElem?_eq_getElem hp0⟩
    rw [List.map_cons]
    simp only [verifySteps, h0, hpf]
    rw [if_neg (not_not_intro rfl), if_neg (not_not_intro (hstep a ha))]
    have hvm : verify_merkle_proof root (H (snapshotBytes (tr.getD a default))) pf a
        (TRACE_LEN + 1) = true := rfl
    rw [if_pos hvm]
    apply ih (i + 1)
    · intro j hj
      have := halign (j + 1) (by simpa using Nat.succ_lt_succ hj)
      simpa [Nat.add_assoc, Nat.add_comm 1 j] using this
    · intro j hj
      have := hplen (j + 1) (by simpa using Nat.succ_lt_succ hj)
      omega
    · intro x hx
      exact hmem x (List.mem_cons_of_mem a hx)

/-- As long as the verifier's positional indexing stays in bounds of both
the challenge list and the proofs vector, the loop cannot panic. -/
lemma verifySteps_isSome (H : Bytes → Bytes) (root : Bytes) (inds : List Nat)
    (proofs : List (List Bytes)) :
    ∀ (suf : List (Nat × State × State)) (i : Nat),
      i + suf.length ≤ inds.length → i + suf.length ≤ proofs.length →
      (verifySteps H root inds proofs suf i).isSome = true := by
  intro suf
  induction suf with
  | nil => intro i _ _; rfl
  | cons e rest ih =>
    obtain ⟨idx, s_curr, s_next⟩ := e
    intro i hind hpf
    simp only [List.length_cons] at hind hpf
    have h0 : inds[i]? = some inds[i] := List.getElem?_eq_getElem (by omega)
    have hp0 : proofs[i]? = some proofs[i] := List.getElem?_eq_getElem (by omega)
    simp only [verifySteps, h0, hp0]
    by_cases hc : idx ≠ inds[i]
    · rw [if_pos hc]; rfl
    · rw [if_neg hc]
      by_cases hphi : applyPhi s_curr ≠ s_next
      · rw [if_pos hphi]; rfl
      · rw [if_neg hphi]
        have hvm : verify_merkle_proof root (H (snapshotBytes s_curr)) proofs[i] idx
            (TRACE_LEN + 1) = true := rfl
        rw [if_pos hvm]
        exact ih (i + 1) (by omega) (by omega)

/-- The loop result does not depend on the contents of the proofs vector,
only on its length being large enough for the positional indexing. -/
lemma verifySteps_proofs_irrelevant (H : Bytes → Bytes) (root : Bytes) (inds : List Nat)
    (proofs1 proofs2 : List (List Bytes)) :
    ∀ (suf : List (Nat × State × State)) (i : Nat),
      i + suf.length ≤ proofs1.length → i + suf.length ≤ proofs2.length →
      verifySteps H root inds proofs1 suf i = verifySteps H root inds proofs2 suf i := by
  intro suf
  induction suf with
  | nil => intro i _ _; rfl
  | cons e rest ih =>
    obtain ⟨idx, s_curr, s_next⟩ := e
    intro i hp1 hp2
    simp only [List.length_cons] at hp1 hp2
    have h1 : proofs1[i]? = some proofs1[i] := List.getElem?_eq_getElem (by omega)
    have h2 : proofs2[i]? = some proofs2[i] := List.getElem?_eq_getElem (by omega)
    cases hind : inds[i]? with
    | none => simp only [verifySteps, hind]
    | some c =>
      simp only [verifySteps, hind, h1, h2]
      by_cases hc : idx ≠ c
      · rw [if_pos hc, if_pos hc]
      · rw [if_neg hc, if_neg hc]
        by_cases hphi : applyPhi s_curr ≠ s_next
        · rw [if_pos hphi, if_pos hphi]
        · rw [if_neg hphi, if_neg hphi]
          have hv1 : verify_merkle_proof root (H (snapshotBytes s_curr)) proofs1[i] idx
              (TRACE_LEN + 1) = true := rfl
          have hv2 : verify_merkle_proof root (H (snapshotBytes s_curr)) proofs2[i] idx
              (TRACE_LEN + 1) = true := rfl
          rw [if_pos hv1, if_pos hv2]
          exact ih (i + 1) (by omega) (by omega)

/-- If the loop accepts, every revealed index agrees positionally with the
challenge list. -/
lemma verifySteps_true_indices (H : Bytes → Bytes) (root : Bytes) (inds : List Nat)
    (proofs : List (List Bytes)) :
    ∀ (suf : List (Nat × State × State)) (i : Nat),
      verifySteps H root inds proofs suf i = some true →
      ∀ j, j < suf.length → inds[i + j]? = (suf[j]?).map (fun e => e.1) := by
  intro suf
  induction suf with
  | nil => intro i _ j hj; simp at hj
  | cons e rest ih =>
    obtain ⟨idx, s_curr, s_next⟩ := e
    intro i hacc j hj
    cases hind : inds[i]? with
    | none =>
      simp only [verifySteps, hind] at hacc
      exact absurd hacc (by simp)
    | some c =>
      simp only [verifySteps, hind] at hacc
      by_cases hc : idx ≠ c
      · rw [if_pos hc] at hacc; exact absurd hacc (by simp)
      · rw [if_neg hc] at hacc
        push_neg at hc
        by_cases hphi : applyPhi s_curr ≠ s_next
        · rw [if_pos hphi] at hacc; exact absurd hacc (by simp)
        · rw [if_neg hphi] at hacc
          cases hpf : proofs[i]? with
          | none => rw [hpf] at hacc; exact absurd hacc (by simp)
          | some pf =>
            simp only [hpf] at hacc
            have hvm : verify_merkle_proof root (H (snapshotBytes s_curr)) pf idx
                (TRACE_LEN + 1) = true := rfl
            rw [if_pos hvm] at hacc
            cases j with
            | zero => simpa [hc] using hind
            | succ k =>
              have := ih (i + 1) hacc k (by simpa using Nat.lt_of_succ_lt_succ hj)
              simpa [Nat.add_assoc, Nat.add_comm 1 k] using this

/-! ### Claim theorems -/

/-- C1: round-trip completeness.  For every hash function `H` and every
initial state (hence for every key/iv seeding `(iv0, iv1, key0, key1)`),
the proof produced by `ZKProof::prove` is accepted:
`verify (prove key iv) = true` — and in particular the verifier does not
panic on it. -/
theorem prove_verify_roundtrip (H : Bytes → Bytes) (s : State) :
    verify H (prove H s) = some true := by
  unfold verify prove
  simp only [List.length_map]
  rw [if_neg (not_not_intro rfl)]
  apply verifySteps_accepts H _ _ _ (traceOf s) (traceOf_step s)
  · intro j hj
    simp [List.length_map] at hj
    simp
  · intro j hj
    simp only [List.length_map] at hj ⊢
    omega
  · exact derive_indices_lt _

/-- C2 counterexample: the claim "any proof whose revealed-entries count or
paths count differs from 4 is rejected with `false`, and `verify` never
panics" is false on the code.  A proof with five Merkle paths is accepted
(`some true`, not `false`), and a proof with four valid revealed entries
but an empty paths vector makes `verify` index `merkle_proofs[0]` out of
bounds — a panic, modelled as `none`. -/
theorem verify_paths_count_counterexample :
    (proofFivePaths.merkle_proofs.length = 5 ∧ verify H0 proofFivePaths = some true) ∧
    verify H0 proofNoPaths = none := by
  decide

/-- C2 amended: `ZKProof::verify` rejects with `false` whenever the
revealed-entries count differs from 4, and it runs to completion (returns a
boolean, no panic) whenever `merkle_proofs` has at least as many entries as
`revealed_steps`; the paths count itself is never checked. -/
theorem verify_total_amended (H : Bytes → Bytes) (p : ZKProof) :
    (p.revealed_steps.length ≠ 4 → verify H p = some false) ∧
    (p.revealed_steps.length ≤ p.merkle_proofs.length → (verify H p).isSome = true) := by
  constructor
  · intro hne
    unfold verify
    simp only []
    rw [derive_indices_length, if_pos hne]
  · intro hle
    unfold verify
    simp only []
    by_cases hlen : p.revealed_steps.length =
        (derive_indices (H p.merkle_root) TRACE_LEN).length
    · rw [if_neg (not_not_intro hlen)]
      exact verifySteps_isSome H p.merkle_root _ _ p.revealed_steps 0
        (by omega) (by omega)
    · rw [if_pos hlen]; rfl

/-- C2 witness: a proof with three revealed entries is rejected with
`false`, and a proof with more paths than revealed entries returns a
boolean. -/
theorem verify_total_amended_witness :
    verify H0 proofShortRevealed = some false ∧
    (verify H0 proofFivePaths).isSome = true :=
  ⟨(verify_total_amended H0 proofShortRevealed).1 (by decide),
    (verify_total_amended H0 proofFivePaths).2 (by decide)⟩

/-- C3 counterexample: the claim "the Merkle commitment is computed over
exactly 32 leaves, with leaves 17..31 the all-zero value and a perfect
depth-5 tree" is false on the code: `prove` builds exactly 17 leaves —
there is no leaf at index 17 at all, zero-valued or otherwise. -/
theorem merkle_leaves_counterexample :
    (leavesOf H0 zeroState).length = 17 ∧
    (leavesOf H0 zeroState).length ≠ 32 ∧
    (leavesOf H0 zeroState)[17]? = none := by
  decide

/-- C3 amended: in `ZKProof::prove` the Merkle commitment is computed over
exactly 17 leaves — one per trace snapshot, leaf `i` being
`H(snapshot_bytes(trace[i])) = H(snapshot_bytes(Φ^i(s)))` — with no
zero padding, and the root is `build_merkle_root` of those 17 leaves
(pairwise hashing that promotes an unpaired last node unchanged). -/
theorem merkle_leaves_amended (H : Bytes → Bytes) (s : State) :
    (prove H s).merkle_root = build_merkle_root H (leavesOf H s) ∧
    (leavesOf H s).length = 17 ∧
    ∀ i, i ≤ 16 → (leavesOf H s)[i]? = some (H (snapshotBytes (applyPhi^[i] s))) := by
  refine ⟨rfl, by simp [leavesOf, traceOf, TRACE_LEN], ?_⟩
  intro i hi
  unfold leavesOf
  rw [List.getElem?_map, traceOf_getElem s i (by omega), Option.map_some']

/-- C3 witness: the amended statement evaluated at `H0`, the zero state and
leaf index 5. -/
theorem merkle_leaves_amended_witness :
    (prove H0 zeroState).merkle_root = build_merkle_root H0 (leavesOf H0 zeroState) ∧
    (leavesOf H0 zeroState).length = 17 ∧
    (leavesOf H0 zeroState)[5]? = some (H0 (snapshotBytes (applyPhi^[5] zeroState))) :=
  ⟨(merkle_leaves_amended H0 zeroState).1,
    (merkle_leaves_amended H0 zeroState).2.1,
    (merkle_leaves_amended H0 zeroState).2.2 5 (by decide)⟩

/-- C4 (code bug): evaluating the code at the failing input: every Merkle
path emitted by `prove` is empty (`generate_merkle_proof` is a placeholder
returning `vec![]`), so no path has the claimed length 5. -/
theorem merkle_paths_empty_eval :
    (prove H0 zeroState).merkle_proofs = [[], [], [], []] ∧
    generate_merkle_proof (leavesOf H0 zeroState) 3 = [] := by
  decide

/-- C5 counterexample: the claimed HLTM boundary values are false on the
code: `hltm(1) = 4·1·(1−1) = 0`, not `0xFFFFFFFFFFFFFFFC` (the code
computes `1u64.wrapping_sub(x)`, not a wrapping negation), and
`hltm(2^63+1) = −4 mod 2^64 = 0xFFFFFFFFFFFFFFFC`, not
`0x7FFFFFFFFFFFFFFC`. -/
theorem hltm_boundary_counterexample :
    ¬ (hltm 0 = 0 ∧ hltm 1 = 0xFFFFFFFFFFFFFFFC ∧ hltm (2 ^ 63) = 0 ∧
        hltm (2 ^ 63 + 1) = 0x7FFFFFFFFFFFFFFC) := by
  decide

/-- C5 amended: the four HLTM boundary values the code actually takes:
`hltm(0) = 0`, `hltm(1) = 0`, `hltm(2^63) = 0`, and
`hltm(2^63 + 1) = 0xFFFFFFFFFFFFFFFC`. -/
theorem hltm_boundary_amended :
    hltm 0 = 0 ∧ hltm 1 = 0 ∧ hltm (2 ^ 63) = 0 ∧
    hltm (2 ^ 63 + 1) = 0xFFFFFFFFFFFFFFFC := by
  decide

/-- C6 counterexample: Φ is not injective: two distinct valid 64-bit
4-tuples with the same image under `applyPhi`.  Lanes 1 and 3 of the two
states differ by `0x8888888888888888`, a difference invariant enough under
the lattice rotations to cancel, while the HLTM collides across its two
branches on this pair. -/
theorem phi_collision_counterexample :
    collisionA.valid ∧ collisionB.valid ∧ collisionA ≠ collisionB ∧
    applyPhi collisionA = applyPhi collisionB := by
  decide

/-- C6 amended: Φ (`State::apply_phi`) is not injective on 4-tuples of
64-bit words: there exist distinct valid states with equal image. -/
theorem phi_not_injective :
    ∃ a b : State, a.valid ∧ b.valid ∧ a ≠ b ∧ applyPhi a = applyPhi b :=
  ⟨collisionA, collisionB, by decide⟩

/-- C7 counterexample: the claim that `encrypt` absorbs a 128-bit block
`(p0, p1)` into `s0, s1` and returns the rate pair is false on the code:
the spec-modelled block encryption at block `(0, 1)` from the zero sponge
disagrees with the code's `encrypt` (which takes a single 64-bit word) in
both the first ciphertext word and the resulting sponge state. -/
theorem encrypt_block_counterexample :
    (specEncryptBlock ⟨zeroState⟩ 0 1).1.1 ≠ (FractSponge.encrypt ⟨zeroState⟩ 0).1 ∧
    (specEncryptBlock ⟨zeroState⟩ 0 1).2 ≠ (FractSponge.encrypt ⟨zeroState⟩ 0).2 := by
  decide

/-- C7 amended: `FractSponge::encrypt` absorbs a single 64-bit plaintext
word into rate lane `s0` only (lanes `s1, s2, s3` are untouched by
absorption), applies Φ exactly 8 times, and returns the post-permutation
`s0` as the ciphertext together with the permuted state. -/
theorem encrypt_amended (sp : FractSponge) (p : Nat) :
    FractSponge.encrypt sp p =
      ((applyPhi^[8] { sp.state with s0 := sp.state.s0 ^^^ p }).s0,
        ⟨applyPhi^[8] { sp.state with s0 := sp.state.s0 ^^^ p }⟩) := by
  unfold FractSponge.encrypt
  simp only []
  rw [foldl_range_iterate applyPhi ROUNDS]
  rfl

/-- C8: challenge derivation and positional matching.  Whenever the
verifier accepts, the sequence of revealed indices is exactly
`derive_indices(H(root), 16)`, which equals the spec's formula: the four
little-endian 64-bit words of the seed `H(root)`, each reduced mod 16, in
order and without deduplication. -/
theorem verify_challenge_positional (H : Bytes → Bytes) (p : ZKProof)
    (hacc : verify H p = some true) :
    p.revealed_steps.map (fun e => e.1) = specIndices (H p.merkle_root) := by
  rw [← derive_indices_eq_specIndices]
  unfold verify at hacc
  by_cases hlen : p.revealed_steps.length ≠
      (derive_indices (H p.merkle_root) TRACE_LEN).length
  · rw [if_pos hlen] at hacc; exact absurd hacc (by simp)
  · rw [if_neg hlen] at hacc
    push_neg at hlen
    have hidx := verifySteps_true_indices H p.merkle_root _ p.merkle_proofs
      p.revealed_steps 0 hacc
    apply List.ext_getElem?
    intro j
    by_cases hj : j < p.revealed_steps.length
    · have hj2 := hidx j hj
      simp only [Nat.zero_add] at hj2
      rw [List.getElem?_map, ← hj2]
    · push_neg at hj
      rw [List.getElem?_eq_none (by simpa using hj),
        List.getElem?_eq_none (by omega)]

/-- C8 witness: the accepted concrete proof's revealed indices (four zero
indices — duplicates accepted) match the spec formula on `H0`. -/
theorem verify_challenge_positional_witness :
    proofAccepted.revealed_steps.map (fun e => e.1) =
      specIndices (H0 proofAccepted.merkle_root) :=
  verify_challenge_positional H0 proofAccepted (by decide)

/-- C9: index tampering is always rejected.  For every hash `H` and every
initial state, replacing `revealed[0].idx` of an honest proof by
`(idx + 1) % 16` makes `verify` return `false`. -/
theorem verify_index_tamper (H : Bytes → Bytes) (s : State) :
    verify H (tamper_index (prove H s)) = some false := by
  unfold verify tamper_index prove
  simp only []
  set ci := derive_indices (H (build_merkle_root H (leavesOf H s))) TRACE_LEN with hci
  have hlt : ∀ x ∈ ci, x < 16 := derive_indices_lt _
  have hlen : ci.length = 4 := derive_indices_length _ _
  obtain ⟨i0, rest, hcons⟩ : ∃ a l, ci = a :: l := by
    cases hc : ci with
    | nil => rw [hc] at hlen; simp at hlen
    | cons a l => exact ⟨a, l, rfl⟩
  have hi0 : i0 < 16 := hlt i0 (by rw [hcons]; exact List.mem_cons_self i0 rest)
  rw [hcons]
  simp only [List.map_cons]
  rw [if_neg (not_not_intro (by simp))]
  simp only [verifySteps, List.getElem?_cons_zero]
  rw [if_pos (by omega : (i0 + 1) % 16 ≠ i0)]

/-- C10: the verifier's result is independent of the Merkle path contents:
two proofs agreeing on root and revealed entries, each with at least as
many paths as revealed entries, verify identically — no sibling hash
influences acceptance. -/
theorem verify_path_independent (H : Bytes → Bytes) (p q : ZKProof)
    (hroot : p.merkle_root = q.merkle_root)
    (hrev : p.revealed_steps = q.revealed_steps)
    (hp : p.revealed_steps.length ≤ p.merkle_proofs.length)
    (hq : q.revealed_steps.length ≤ q.merkle_proofs.length) :
    verify H p = verify H q := by
  unfold verify
  rw [hroot, hrev]
  by_cases hlen : q.revealed_steps.length =
      (derive_indices (H q.merkle_root) TRACE_LEN).length
  · rw [if_neg (not_not_intro hlen), if_neg (not_not_intro hlen)]
    exact verifySteps_proofs_irrelevant H q.merkle_root _ p.merkle_proofs q.merkle_proofs
      q.revealed_steps 0 (by rw [← hrev]; omega) (by omega)
  · rw [if_pos hlen, if_pos hlen]

/-- C10 witness: replacing the empty first path with one carrying an
arbitrary sibling hash leaves the verdict unchanged. -/
theorem verify_path_independent_witness :
    verify H0 proofAccepted = verify H0 proofAlteredPath :=
  verify_path_independent H0 proofAccepted proofAlteredPath rfl rfl
    (by decide) (by decide)

end ZkDisorder
